import Mathlib

set_option maxHeartbeats 1000000

/-!
Verification of `docker/scripts/produce_messages.py`: a shallow embedding of
the descriptor resolver (`load_descriptors`), the message-type scan and sample
builder (`create_sample_messages`), and the publish loops of `main`, together
with theorems settling the specification's claims about them.
-/

/-- A message type descriptor, as exposed by `file_desc.message_types_by_name`:
a bare name plus the owning package (enough to distinguish same-named types
from different packages). -/
structure MsgDesc where
  name : String
  pkg : String
deriving DecidableEq, Repr

/-- One entry of the parsed `FileDescriptorSet` (a `FileDescriptorProto`):
name, package, declared dependency file names, and the bare names of its
top-level message types. -/
structure FileProto where
  name : String
  package : String
  dependency : List String
  messageType : List String
deriving DecidableEq, Repr

/-- A constructed `FileDescriptor`: carries its name, package, the declared
dependency names (from its serialized proto), its message types, and the
live references to the already-resolved dependency descriptors that were
passed to the constructor. -/
inductive FileDesc : Type where
  | mk (name : String) (package : String) (dependencyNames : List String)
       (messageTypes : List MsgDesc) (deps : List FileDesc)

def FileDesc.name : FileDesc → String
  | .mk n _ _ _ _ => n

def FileDesc.package : FileDesc → String
  | .mk _ p _ _ _ => p

def FileDesc.dependencyNames : FileDesc → List String
  | .mk _ _ ds _ _ => ds

def FileDesc.messageTypes : FileDesc → List MsgDesc
  | .mk _ _ _ ms _ => ms

def FileDesc.deps : FileDesc → List FileDesc
  | .mk _ _ _ _ ds => ds

/-- The `descriptors` Python dict: insertion-ordered association list from
file name to constructed descriptor. -/
abbrev Dict := List (String × FileDesc)

/-- `descriptors[k]` (with `none` for a missing key). -/
def dictLookup (d : Dict) (k : String) : Option FileDesc :=
  match d with
  | [] => none
  | (k', v) :: rest => if k' = k then some v else dictLookup rest k

/-- `k in descriptors`. -/
def dictContains (d : Dict) (k : String) : Bool :=
  (dictLookup d k).isSome

/-- `descriptors[k] = v`: replace in place if the key exists, else append
(Python dict assignment preserves insertion order). -/
def dictInsert (d : Dict) (k : String) (v : FileDesc) : Dict :=
  match d with
  | [] => [(k, v)]
  | (k', v') :: rest => if k' = k then (k, v) :: rest else (k', v') :: dictInsert rest k v

/-- `FileDescriptor(name=.., package=.., serialized_pb=.., dependencies=deps)`:
the constructed descriptor for `fp`, linked to the given dependency
descriptors. -/
def toDesc (fp : FileProto) (deps : List FileDesc) : FileDesc :=
  .mk fp.name fp.package fp.dependency (fp.messageType.map (fun m => ⟨m, fp.package⟩)) deps

/-- First pass of `load_descriptors`: files without dependencies resolve
immediately. -/
def firstPass (fs : List FileProto) : Dict :=
  fs.foldl (fun d fp => if fp.dependency.isEmpty then dictInsert d fp.name (toDesc fp []) else d) []

/-- One pass of the second loop of `load_descriptors`: scan `remaining` in
order; a file whose every declared dependency is already a key resolves and
is inserted at once (so it can satisfy later files in the same pass).
Returns the updated dict and `resolved_in_pass`. -/
def onePass (d : Dict) : List FileProto → Dict × List FileProto
  | [] => (d, [])
  | fp :: rest =>
    if (fp.dependency.filterMap (fun dep => dictLookup d dep)).length = fp.dependency.length then
      ((onePass (dictInsert d fp.name
          (toDesc fp (fp.dependency.filterMap (fun dep => dictLookup d dep)))) rest).1,
       fp :: (onePass (dictInsert d fp.name
          (toDesc fp (fp.dependency.filterMap (fun dep => dictLookup d dep)))) rest).2)
    else
      onePass d rest

/-- `for resolved in resolved_in_pass: remaining.remove(resolved)`. -/
def removeResolved (rem resolved : List FileProto) : List FileProto :=
  resolved.foldl (fun r fp => r.erase fp) rem

/-- The `while remaining:` loop, fuel-indexed: stop when `remaining` is empty,
or break (warning) on the first pass that resolves nothing new. Returns the
dict and the final (reported) remaining list. -/
def loadLoop : Nat → Dict → List FileProto → Dict × List FileProto
  | 0, d, rem => (d, rem)
  | fuel + 1, d, rem =>
    if rem.isEmpty then (d, rem)
    else
      if (onePass d rem).2.isEmpty then ((onePass d rem).1, rem)
      else loadLoop fuel (onePass d rem).1 (removeResolved rem (onePass d rem).2)

/-- `remaining = [fp for fp in descriptor_set.file if fp.dependency]`. -/
def withDeps (fs : List FileProto) : List FileProto :=
  fs.filter (fun fp => !fp.dependency.isEmpty)

/-- `load_descriptors`: first pass seeds zero-dependency files, then the
fixed-point loop runs; `(withDeps fs).length` passes are enough to reach the
loop's own exit (proved below). The second component is the list of records
reported unresolved in the warning (empty when none are). -/
def load_descriptors (fs : List FileProto) : Dict × List FileProto :=
  loadLoop (withDeps fs).length (firstPass fs) (withDeps fs)

/-- The bindings `user_desc`, `order_desc`, `address_desc` accumulated by the
scan in `create_sample_messages`. -/
structure Bindings where
  user : Option MsgDesc
  order : Option MsgDesc
  address : Option MsgDesc
deriving DecidableEq, Repr

/-- One step of the scan: the `if/elif` chain over a message descriptor's
bare name, overwriting the matching binding. -/
def scanStep (b : Bindings) (m : MsgDesc) : Bindings :=
  if m.name = "User" then { b with user := some m }
  else if m.name = "Order" then { b with order := some m }
  else if m.name = "Address" then { b with address := some m }
  else b

/-- All message types of all files in dict iteration order (the flattening of
the two nested `for` loops of the scan). -/
def allMessageTypes (d : Dict) : List MsgDesc :=
  (d.map (fun kv => kv.2.messageTypes)).flatten

/-- The scan of `create_sample_messages`: iterate `descriptors.values()`,
then each file's `message_types_by_name.values()`, binding User, Order and
Address by bare-name comparison. -/
def findBindings (d : Dict) : Bindings :=
  d.foldl (fun b kv => kv.2.messageTypes.foldl scanStep b) ⟨none, none, none⟩

/-- An `Address` message value as populated by the script. -/
structure Address where
  street : String
  city : String
  country : String
  zip_code : Nat
deriving DecidableEq, Repr

/-- A `User` message value as populated by the script (unset fields keep
their protobuf defaults). -/
structure UserMsg where
  id : Nat
  name : String
  email : String
  tags : List String
  type : Nat
  address : Address
deriving DecidableEq, Repr

/-- An `OrderItem` message value; the `unit_price` float is modelled by its
decimal literal as a rational (no claim inspects it). -/
structure OrderItem where
  product_id : String
  product_name : String
  quantity : Nat
  unit_price : Rat
deriving DecidableEq, Repr

/-- An `Order` message value; `total_amount` is modelled like `unit_price`. -/
structure OrderMsg where
  id : Nat
  user : UserMsg
  total_amount : Rat
  status : Nat
  created_timestamp : Int
  items : List OrderItem
deriving DecidableEq, Repr

/-- A serialized payload. `SerializeToString` is modelled abstractly as the
message value it encodes (the canonical wire encoding is injective on the
populated values; no claim inspects the bytes themselves). -/
inductive Wire where
  | user (u : UserMsg)
  | order (o : OrderMsg)
deriving DecidableEq, Repr

def Wire.isUser : Wire → Bool
  | .user _ => true
  | .order _ => false

/-- One corpus entry `(topic, serialized message, description)`. -/
abbrev Entry := String × Wire × String

/-- The address built inside the User loop at index `i`. -/
def sampleUserAddress (i : Nat) : Address :=
  { street := Nat.repr (100 + i * 10) ++ " Main St"
    city := if i % 2 = 0 then "Springfield" else "Anytown"
    country := "USA"
    zip_code := 12345 + i }

/-- The User sample at index `i` of the first loop. -/
def sampleUser (i : Nat) : UserMsg :=
  { id := 1000 + i
    name := "User " ++ Nat.repr i
    email := "user" ++ Nat.repr i ++ "@example.com"
    tags := ["tag" ++ Nat.repr i, "test"]
    type := if i % 2 = 0 then 1 else 2
    address := sampleUserAddress i }

/-- The address built inside the Order loop at index `i`. -/
def sampleOrderAddress (i : Nat) : Address :=
  { street := Nat.repr (500 + i * 20) ++ " Oak Ave"
    city := "Commerce City"
    country := "USA"
    zip_code := 54321 + i }

/-- The customer embedded in the Order sample at index `i`. -/
def sampleCustomer (i : Nat) : UserMsg :=
  { id := 2000 + i
    name := "Customer " ++ Nat.repr i
    email := "customer" ++ Nat.repr i ++ "@example.com"
    tags := []
    type := 2
    address := sampleOrderAddress i }

/-- The single order item added at index `i`. -/
def sampleItem (i : Nat) : OrderItem :=
  { product_id := "PROD-" ++ Nat.repr (1000 + i)
    product_name := "Product " ++ Nat.repr i
    quantity := i + 1
    unit_price := 19.99 + (i : Rat) * 5 }

/-- The Order sample at index `i`; `times i` is the value of
`int(time.time() * 1000)` observed at that iteration. -/
def sampleOrder (times : Nat → Int) (i : Nat) : OrderMsg :=
  { id := 9000 + i
    user := sampleCustomer i
    total_amount := 99.99 + (i : Rat) * 25.50
    status := 1
    created_timestamp := times i - (i : Int) * 3600000
    items := [sampleItem i] }

/-- The `messages` list built by `create_sample_messages`: five User entries
for `user-events`, then three Order entries for `order-events`. -/
def create_sample_list (times : Nat → Int) : List Entry :=
  (List.range 5).map (fun i => ("user-events", Wire.user (sampleUser i), "User " ++ Nat.repr i))
    ++ (List.range 3).map
        (fun i => ("order-events", Wire.order (sampleOrder times i), "Order " ++ Nat.repr i))

/-- `create_sample_messages`: scan the resolved descriptors for the three
required types; raise `ValueError` when any binding is missing, otherwise
build the sample corpus. -/
def create_sample_messages (d : Dict) (times : Nat → Int) : Except String (List Entry) :=
  match (findBindings d).user, (findBindings d).order, (findBindings d).address with
  | some _, some _, some _ => .ok (create_sample_list times)
  | _, _, _ => .error "Required message types not found in descriptors"

/-- Observable actions of `main`'s delivery code. `connect` is the creation
of a `KafkaProducer`, `close` its `flush()`-and-`close()`. -/
inductive Event where
  | sleep (seconds : Nat)
  | connect
  | send (topic : String) (key : String) (payload : Wire)
  | close
deriving DecidableEq, Repr

def Event.sendTopic? : Event → Option String
  | .send t _ _ => some t
  | _ => none

/-- The initial burst: create a producer, send every corpus entry in order
(each keyed by the wall clock at that send, with a one-second sleep after
each), then flush and close. -/
def burstEvents (msgs : List Entry) (clock : Nat → Nat) : List Event :=
  Event.connect ::
    ((msgs.enum.map
        (fun e => [Event.send e.2.1 ("key-" ++ Nat.repr (clock e.1)) e.2.2.1,
                   Event.sleep 1])).flatten
      ++ [Event.close])

/-- `[user_msg, order_msg] = [messages[0], messages[-1]]` of the background
loop. -/
def bgSelection (msgs : List Entry) : List Entry :=
  msgs.head?.toList ++ msgs.getLast?.toList

/-- Iteration `n` of the background `while True:` loop: sleep the fixed
30-second interval, open a fresh producer, send the two selected messages
(keyed by the wall clock at iteration `n`, send index `k`), flush and close.
The loop body is the same total function at every `n`: the loop has no exit
and repeats forever. -/
def bgIteration (msgs : List Entry) (clock : Nat → Nat → Nat) (n : Nat) : List Event :=
  Event.sleep 30 :: Event.connect ::
    (((bgSelection msgs).enum.map
        (fun e => Event.send e.2.1 ("key-" ++ Nat.repr (clock n e.1)) e.2.2.1))
      ++ [Event.close])

/-- `main`'s exit status, with broker delivery abstracted as succeeding: the
`try` block returns 0 unless `create_sample_messages` raises, in which case
the `except` handler reports the error and returns 1. -/
def mainRun (fs : List FileProto) (times : Nat → Int) : Nat :=
  match create_sample_messages (load_descriptors fs).1 times with
  | .error _ => 1
  | .ok _ => 0

/-- Fixture: a dependency-free file in package `pkga` defining `User`. -/
def fileUserA : FileProto := ⟨"a.proto", "pkga", [], ["User"]⟩

/-- Fixture: a dependency-free file in package `pkgb` also defining `User`. -/
def fileUserB : FileProto := ⟨"b.proto", "pkgb", [], ["User"]⟩

/-- Fixture: a file depending on `a.proto`, defining `Order` and `Address`. -/
def fileOrderC : FileProto := ⟨"c.proto", "pkgc", ["a.proto"], ["Order", "Address"]⟩

/-- Fixture: a file whose declared dependency is absent from the snapshots
it is used in. -/
def fileMissingDep : FileProto := ⟨"bad.proto", "pkgx", ["missing.proto"], []⟩

/-- Fixtures: two files forming a dependency cycle. -/
def fileCycle1 : FileProto := ⟨"c1.proto", "p", ["c2.proto"], []⟩

def fileCycle2 : FileProto := ⟨"c2.proto", "p", ["c1.proto"], []⟩

/-- The schema-graph invariant of the spec: every record present in the
mapping has each of its declared dependency names present as a key of the
mapping. -/
def DepClosed (d : Dict) : Prop :=
  ∀ k fd, dictLookup d k = some fd → ∀ dn ∈ fd.dependencyNames, dictContains d dn = true

/-- A file name is resolvable in a snapshot when some record of the snapshot
bearing that name has all of its declared dependencies resolvable
(zero-dependency records are the base case). A record is never resolvable
exactly when one of its declared dependency names is not `Resolvable` —
whether because it is absent from the snapshot or because it lies on a
dependency cycle. -/
inductive Resolvable (fs : List FileProto) : String → Prop where
  | step (fp : FileProto) (hmem : fp ∈ fs)
      (hdeps : ∀ dep ∈ fp.dependency, Resolvable fs dep) : Resolvable fs fp.name

/-! ## Lemmas about the message-type scan -/

lemma scanStep_user (b : Bindings) (m : MsgDesc) :
    (scanStep b m).user = if m.name = "User" then some m else b.user := by
  unfold scanStep
  by_cases h1 : m.name = "User" <;> simp [h1] <;>
    by_cases h2 : m.name = "Order" <;> simp [h2] <;>
      by_cases h3 : m.name = "Address" <;> simp [h3]

lemma scanStep_order (b : Bindings) (m : MsgDesc) :
    (scanStep b m).order = if m.name = "Order" then some m else b.order := by
  unfold scanStep
  by_cases h1 : m.name = "User" <;> simp [h1] <;>
    by_cases h2 : m.name = "Order" <;> simp [h2] <;>
      by_cases h3 : m.name = "Address" <;> simp [h3]

lemma scanStep_address (b : Bindings) (m : MsgDesc) :
    (scanStep b m).address = if m.name = "Address" then some m else b.address := by
  unfold scanStep
  by_cases h1 : m.name = "User" <;> simp [h1] <;>
    by_cases h2 : m.name = "Order" <;> simp [h2] <;>
      by_cases h3 : m.name = "Address" <;> simp [h3]

/-- The fold of a bare-name selector over a message list keeps the LAST
matching descriptor (each later match overwrites the binding). -/
lemma foldl_scanStep_last (l : List MsgDesc) (b : Bindings) (s : String)
    (proj : Bindings → Option MsgDesc)
    (hproj : ∀ b' m, proj (scanStep b' m) = if m.name = s then some m else proj b') :
    proj (l.foldl scanStep b) = ((l.filter (fun m => m.name == s)).getLast?).or (proj b) := by
  induction l generalizing b with
  | nil => simp
  | cons m l ih =>
    rw [List.foldl_cons, ih]
    by_cases h : m.name = s
    · rw [hproj, if_pos h]
      rw [List.filter_cons_of_pos (by simpa using h)]
      rcases hfl : l.filter (fun m => m.name == s) with _ | ⟨y, ys⟩
      · rw [hfl]; simp
      · rw [hfl, List.getLast?_cons_cons]
        rcases hy : (y :: ys).getLast? with _ | g
        · exact absurd (List.getLast?_eq_none.mp hy) (by simp)
        · simp
    · rw [hproj, if_neg h, List.filter_cons_of_neg (by simpa using h)]

lemma findBindings_eq (d : Dict) :
    findBindings d = (allMessageTypes d).foldl scanStep ⟨none, none, none⟩ := by
  unfold findBindings allMessageTypes
  rw [List.foldl_flatten, List.foldl_map]

lemma findBindings_user (d : Dict) :
    (findBindings d).user
      = ((allMessageTypes d).filter (fun m => m.name == "User")).getLast? := by
  rw [findBindings_eq, foldl_scanStep_last _ _ "User" _ scanStep_user, Option.or_none]

lemma findBindings_order (d : Dict) :
    (findBindings d).order
      = ((allMessageTypes d).filter (fun m => m.name == "Order")).getLast? := by
  rw [findBindings_eq, foldl_scanStep_last _ _ "Order" _ scanStep_order, Option.or_none]

lemma findBindings_address (d : Dict) :
    (findBindings d).address
      = ((allMessageTypes d).filter (fun m => m.name == "Address")).getLast? := by
  rw [findBindings_eq, foldl_scanStep_last _ _ "Address" _ scanStep_address, Option.or_none]

/-- C1: the claim says the FIRST match across the iteration order wins when
two packages define a message with the same bare name. Counterexample: with
two resolved files `a.proto` (package `pkga`) and `b.proto` (package `pkgb`)
each defining `User`, the scan binds the `pkgb` descriptor — the second
(last) match — not the first. -/
theorem C1_first_match_counterexample :
    allMessageTypes (load_descriptors [fileUserA, fileUserB]).1
      = [⟨"User", "pkga"⟩, ⟨"User", "pkgb"⟩]
    ∧ (findBindings (load_descriptors [fileUserA, fileUserB]).1).user
        = some ⟨"User", "pkgb"⟩
    ∧ (⟨"User", "pkgb"⟩ : MsgDesc) ≠ ⟨"User", "pkga"⟩ :=
  ⟨rfl, rfl, by decide⟩

/-- C1 (amended): message-type lookup scans all resolved files for a message
type by its bare name, and when several types share the bare name, the LAST
match encountered in the iteration order over resolved files is the one
bound (each later match overwrites the binding), for each of the three
required names. -/
theorem C1_last_match_wins (d : Dict) :
    (findBindings d).user
      = ((allMessageTypes d).filter (fun m => m.name == "User")).getLast?
    ∧ (findBindings d).order
      = ((allMessageTypes d).filter (fun m => m.name == "Order")).getLast?
    ∧ (findBindings d).address
      = ((allMessageTypes d).filter (fun m => m.name == "Address")).getLast? :=
  ⟨findBindings_user d, findBindings_order d, findBindings_address d⟩

/-- C5: for a snapshot of a dependency-free file `a` and a file `b` that
depends on `a`, `load_descriptors` resolves `a` in the zero-dependency
seeding pass and `b` in the first loop pass (so the graph lists `a` first,
`b` second), nothing is reported unresolved, and the dependency reference
stored in `b`'s record is exactly the descriptor stored in the graph under
`a`'s name (reference identity is modelled as equality of the linked value
with the graph entry). -/
theorem C5_pair_resolution (a b : FileProto)
    (ha : a.dependency = []) (hb : b.dependency = [a.name]) (hne : a.name ≠ b.name) :
    load_descriptors [a, b]
      = ([(a.name, toDesc a []), (b.name, toDesc b [toDesc a []])], [])
    ∧ dictLookup (load_descriptors [a, b]).1 a.name = some (toDesc a [])
    ∧ (toDesc b [toDesc a []]).deps = [toDesc a []] := by
  have hmain : load_descriptors [a, b]
      = ([(a.name, toDesc a []), (b.name, toDesc b [toDesc a []])], []) := by
    simp [load_descriptors, withDeps, firstPass, loadLoop, onePass, removeResolved,
      dictInsert, dictLookup, ha, hb, hne, List.filter]
  refine ⟨hmain, ?_, rfl⟩
  rw [hmain]
  simp [dictLookup]

/-- C5 witness: the scenario instantiated with the concrete pair
`a.proto` / `c.proto`. -/
theorem C5_pair_resolution_witness :
    load_descriptors [fileUserA, fileOrderC]
      = ([("a.proto", toDesc fileUserA []),
          ("c.proto", toDesc fileOrderC [toDesc fileUserA []])], []) :=
  (C5_pair_resolution fileUserA fileOrderC rfl rfl (by decide)).1

/-- C6: identifier fields are pure functions of the sample index and
injective in it: numeric ids (`1000 + i` for burst users, `2000 + i` for
order customers, `9000 + i` for orders) differ for all distinct indices, and
the string identifiers (emails, product ids) differ for all distinct indices
of the respective generation loops (users run over `0..4`, orders over
`0..2`). -/
theorem C6_identifiers_injective (i j : Nat) (hij : i ≠ j) :
    (sampleUser i).id ≠ (sampleUser j).id
    ∧ (sampleCustomer i).id ≠ (sampleCustomer j).id
    ∧ (∀ t t' : Nat → Int, (sampleOrder t i).id ≠ (sampleOrder t' j).id)
    ∧ (i < 5 → j < 5 → (sampleUser i).email ≠ (sampleUser j).email)
    ∧ (i < 3 → j < 3 →
        (sampleCustomer i).email ≠ (sampleCustomer j).email
        ∧ (sampleItem i).product_id ≠ (sampleItem j).product_id) := by
  refine ⟨?_, ?_, ?_, ?_, ?_⟩
  · simp only [sampleUser]; omega
  · simp only [sampleCustomer]; omega
  · intro t t'; simp only [sampleOrder]; omega
  · intro hi hj
    interval_cases i <;> interval_cases j <;> first | exact absurd rfl hij | decide
  · intro hi hj
    interval_cases i <;> interval_cases j <;> first | exact absurd rfl hij | decide

/-- C6 witness: sample indices 0 and 1. -/
theorem C6_identifiers_injective_witness :
    (sampleUser 0).id ≠ (sampleUser 1).id
    ∧ (sampleUser 0).email ≠ (sampleUser 1).email
    ∧ (sampleItem 0).product_id ≠ (sampleItem 1).product_id :=
  ⟨(C6_identifiers_injective 0 1 (by decide)).1,
   (C6_identifiers_injective 0 1 (by decide)).2.2.2.1 (by decide) (by decide),
   ((C6_identifiers_injective 0 1 (by decide)).2.2.2.2 (by decide) (by decide)).2⟩

/-- C7: every enumerated/status-like field of the samples is keyed by the
parity of the index and drawn from a small fixed set: a burst user's `type`
is 1 for even indices and 2 for odd ones (its address city likewise
alternates between two values), while an order's `status` is the constant 1
and its embedded customer's `type` the constant 2 — so all such fields agree
on indices of equal parity. -/
theorem C7_parity_cycling (times : Nat → Int) (i j : Nat) (h : i % 2 = j % 2) :
    (sampleUser i).type = (sampleUser j).type
    ∧ (sampleUser i).address.city = (sampleUser j).address.city
    ∧ (sampleOrder times i).status = (sampleOrder times j).status
    ∧ (sampleOrder times i).user.type = (sampleOrder times j).user.type
    ∧ (sampleUser i).type = (if i % 2 = 0 then 1 else 2)
    ∧ (sampleUser i).address.city = (if i % 2 = 0 then "Springfield" else "Anytown")
    ∧ (sampleOrder times i).status = 1
    ∧ (sampleOrder times i).user.type = 2 := by
  refine ⟨?_, ?_, rfl, rfl, rfl, rfl, rfl, rfl⟩
  · simp only [sampleUser, h]
  · simp only [sampleUser, sampleUserAddress, h]

/-- C7 witness: indices 0 and 2 (equal parity). -/
theorem C7_parity_cycling_witness :
    (sampleUser 0).type = (sampleUser 2).type
    ∧ (sampleOrder (fun _ => 0) 0).status = 1 :=
  ⟨(C7_parity_cycling (fun _ => 0) 0 2 rfl).1,
   (C7_parity_cycling (fun _ => 0) 0 2 rfl).2.2.2.2.2.2.1⟩

/-- C8: after the burst, every iteration `n` of the background loop produces
exactly the same shape of events: sleep the fixed 30-second interval, open a
fresh producer, send exactly one `user-events` message (`messages[0]`, the
first User sample) and one `order-events` message (`messages[-1]`, the last
Order sample) and nothing else, then close the producer. The iteration is a
total function of `n`, so the loop repeats forever with no exit. -/
theorem C8_background_loop (times : Nat → Int) (clock : Nat → Nat → Nat) (n : Nat) :
    bgIteration (create_sample_list times) clock n
      = [Event.sleep 30, Event.connect,
         Event.send "user-events" ("key-" ++ Nat.repr (clock n 0)) (Wire.user (sampleUser 0)),
         Event.send "order-events" ("key-" ++ Nat.repr (clock n 1))
           (Wire.order (sampleOrder times 2)),
         Event.close] := rfl

/-- C10: whenever `create_sample_messages` succeeds it returns exactly 8
entries: 5 User messages for topic `user-events` followed by 3 Order
messages for topic `order-events`, and the initial burst sends exactly these
8 payloads in that order. -/
theorem C10_corpus_shape (times : Nat → Int) (clock : Nat → Nat) (d : Dict)
    (msgs : List Entry) (hok : create_sample_messages d times = .ok msgs) :
    msgs = create_sample_list times
    ∧ msgs.length = 8
    ∧ msgs.map (fun e => e.1)
        = ["user-events", "user-events", "user-events", "user-events", "user-events",
           "order-events", "order-events", "order-events"]
    ∧ msgs.map (fun e => e.2.1)
        = [Wire.user (sampleUser 0), Wire.user (sampleUser 1), Wire.user (sampleUser 2),
           Wire.user (sampleUser 3), Wire.user (sampleUser 4),
           Wire.order (sampleOrder times 0), Wire.order (sampleOrder times 1),
           Wire.order (sampleOrder times 2)]
    ∧ (burstEvents msgs clock).filterMap Event.sendTopic?
        = ["user-events", "user-events", "user-events", "user-events", "user-events",
           "order-events", "order-events", "order-events"] := by
  have hmsgs : msgs = create_sample_list times := by
    unfold create_sample_messages at hok
    rcases hu : (findBindings d).user with _ | u <;>
      rcases ho : (findBindings d).order with _ | o <;>
        rcases ha : (findBindings d).address with _ | a <;>
          rw [hu, ho, ha] at hok <;> simp at hok
    exact hok.symm
  subst hmsgs
  exact ⟨rfl, rfl, rfl, rfl, rfl⟩

/-- C10 witness: the corpus produced from a snapshot defining all three
required types. -/
theorem C10_corpus_shape_witness :
    (create_sample_list (fun _ => 0)).length = 8 :=
  (C10_corpus_shape (fun _ => 0) (fun _ => 0) (load_descriptors [fileUserA, fileOrderC]).1
    (create_sample_list (fun _ => 0)) rfl).2.1

/-- C9: `create_sample_messages` raises `ValueError` exactly when at least
one of the bare names `User`, `Order`, `Address` occurs nowhere among the
message types of the resolved file descriptors, and the error is fatal:
`main` catches it, there is no fallback type, and the run exits with
status 1. -/
theorem C9_missing_type_fatal (fs : List FileProto) (times : Nat → Int) :
    (create_sample_messages (load_descriptors fs).1 times
        = .error "Required message types not found in descriptors"
      ↔ ((∀ m ∈ allMessageTypes (load_descriptors fs).1, m.name ≠ "User")
          ∨ (∀ m ∈ allMessageTypes (load_descriptors fs).1, m.name ≠ "Order")
          ∨ (∀ m ∈ allMessageTypes (load_descriptors fs).1, m.name ≠ "Address")))
    ∧ (create_sample_messages (load_descriptors fs).1 times
        = .error "Required message types not found in descriptors"
        → mainRun fs times = 1) := by
  have habsent : ∀ (s : String),
      (((allMessageTypes (load_descriptors fs).1).filter
          (fun m => m.name == s)).getLast? = none
        ↔ ∀ m ∈ allMessageTypes (load_descriptors fs).1, m.name ≠ s) := by
    intro s
    rw [List.getLast?_eq_none_iff, List.filter_eq_nil_iff]
    simp
  constructor
  · rw [← habsent "User", ← habsent "Order", ← habsent "Address",
      ← findBindings_user, ← findBindings_order, ← findBindings_address]
    unfold create_sample_messages
    rcases hu : (findBindings (load_descriptors fs).1).user with _ | u <;>
      rcases ho : (findBindings (load_descriptors fs).1).order with _ | o <;>
        rcases ha : (findBindings (load_descriptors fs).1).address with _ | a <;>
          simp
  · intro herr
    unfold mainRun
    rw [herr]

/-- C9 witness: the empty snapshot has no message types, so the error is
raised and `main` returns 1. -/
theorem C9_missing_type_fatal_witness : mainRun [] (fun _ => 0) = 1 :=
  (C9_missing_type_fatal [] (fun _ => 0)).2 rfl

/-! ## Lemmas about the resolver -/

lemma dictLookup_insert (d : Dict) (k j : String) (v : FileDesc) :
    dictLookup (dictInsert d k v) j = if k = j then some v else dictLookup d j := by
  induction d with
  | nil => rfl
  | cons kv rest ih =>
    obtain ⟨k', v'⟩ := kv
    by_cases hkk : k' = k
    · subst hkk
      by_cases hj : k' = j <;> simp [dictInsert, dictLookup, hj]
    · by_cases hj : k' = j
      · subst hj
        have hne : k ≠ k' := fun h => hkk h.symm
        simp [dictInsert, dictLookup, hkk, hne]
      · simp [dictInsert, dictLookup, hkk, hj, ih]

lemma dictContains_insert (d : Dict) (k j : String) (v : FileDesc) :
    dictContains (dictInsert d k v) j = ((k == j) || dictContains d j) := by
  unfold dictContains
  rw [dictLookup_insert]
  by_cases h : k = j <;> simp [h]

lemma dictContains_insert_of (d : Dict) (k j : String) (v : FileDesc)
    (h : dictContains d j = true) : dictContains (dictInsert d k v) j = true := by
  rw [dictContains_insert, h, Bool.or_true]

lemma dictContains_insert_self (d : Dict) (k : String) (v : FileDesc) :
    dictContains (dictInsert d k v) k = true := by
  rw [dictContains_insert]
  simp

lemma length_filterMap_eq_iff {α β : Type} (f : α → Option β) (l : List α) :
    (l.filterMap f).length = l.length ↔ ∀ x ∈ l, (f x).isSome = true := by
  induction l with
  | nil => simp
  | cons x l ih =>
    rcases hx : f x with _ | y
    · simp only [List.filterMap_cons, hx]
      have hle := List.length_filterMap_le f l
      constructor
      · intro h
        rw [List.length_cons] at h
        omega
      · intro h
        have hx' := h x (List.mem_cons_self x l)
        rw [hx] at hx'
        simp at hx'
    · simp only [List.filterMap_cons, hx, List.length_cons]
      constructor
      · intro h
        intro z hz
        rcases List.mem_cons.mp hz with rfl | hz'
        · rw [hx]; rfl
        · exact ih.mp (by omega) z hz'
      · intro h
        have := ih.mpr (fun z hz => h z (List.mem_cons_of_mem _ hz))
        omega

lemma onePass_resolved_subset (d : Dict) (rem : List FileProto) :
    ∀ fp ∈ (onePass d rem).2, fp ∈ rem := by
  induction rem generalizing d with
  | nil => simp [onePass]
  | cons g rest ih =>
    intro fp hfp
    by_cases hc : (g.dependency.filterMap (fun dep => dictLookup d dep)).length
        = g.dependency.length
    · simp only [onePass, if_pos hc] at hfp
      rcases List.mem_cons.mp hfp with rfl | h
      · exact List.mem_cons_self _ _
      · exact List.mem_cons_of_mem _ (ih _ fp h)
    · simp only [onePass, if_neg hc] at hfp
      exact List.mem_cons_of_mem _ (ih _ fp hfp)

lemma onePass_contains_mono (d : Dict) (rem : List FileProto) (k : String)
    (h : dictContains d k = true) : dictContains (onePass d rem).1 k = true := by
  induction rem generalizing d with
  | nil => simpa [onePass]
  | cons g rest ih =>
    by_cases hc : (g.dependency.filterMap (fun dep => dictLookup d dep)).length
        = g.dependency.length
    · simp only [onePass, if_pos hc]
      exact ih _ (dictContains_insert_of _ _ _ _ h)
    · simp only [onePass, if_neg hc]
      exact ih _ h

lemma onePass_resolved_contains (d : Dict) (rem : List FileProto) :
    ∀ fp ∈ (onePass d rem).2, dictContains (onePass d rem).1 fp.name = true := by
  induction rem generalizing d with
  | nil => simp [onePass]
  | cons g rest ih =>
    intro fp hfp
    by_cases hc : (g.dependency.filterMap (fun dep => dictLookup d dep)).length
        = g.dependency.length
    · simp only [onePass, if_pos hc] at hfp ⊢
      rcases List.mem_cons.mp hfp with rfl | h
      · exact onePass_contains_mono _ _ _ (dictContains_insert_self _ _ _)
      · exact ih _ fp h
    · simp only [onePass, if_neg hc] at hfp ⊢
      exact ih _ fp hfp

lemma onePass_no_progress (d : Dict) (rem : List FileProto)
    (h : (onePass d rem).2 = []) :
    (onePass d rem).1 = d
    ∧ ∀ fp ∈ rem, ∃ dep ∈ fp.dependency, dictContains d dep = false := by
  induction rem generalizing d with
  | nil => exact ⟨rfl, by simp⟩
  | cons g rest ih =>
    by_cases hc : (g.dependency.filterMap (fun dep => dictLookup d dep)).length
        = g.dependency.length
    · exfalso
      simp only [onePass, if_pos hc] at h
      exact List.cons_ne_nil _ _ h
    · simp only [onePass, if_neg hc] at h ⊢
      obtain ⟨h1, h2⟩ := ih _ h
      refine ⟨h1, ?_⟩
      intro fp hfp
      rcases List.mem_cons.mp hfp with rfl | hm
      · have hnot : ¬ ∀ dep ∈ fp.dependency, (dictLookup d dep).isSome = true :=
          fun hall => hc ((length_filterMap_eq_iff _ _).mpr hall)
        push_neg at hnot
        obtain ⟨dep, hdep, hns⟩ := hnot
        exact ⟨dep, hdep, by simpa [dictContains] using hns⟩
      · exact h2 fp hm

lemma depClosed_insert (d : Dict) (fp : FileProto) (deps : List FileDesc)
    (hd : DepClosed d) (hall : ∀ dn ∈ fp.dependency, dictContains d dn = true) :
    DepClosed (dictInsert d fp.name (toDesc fp deps)) := by
  intro k fd hk dn hdn
  rw [dictLookup_insert] at hk
  by_cases h : fp.name = k
  · rw [if_pos h] at hk
    cases hk
    have hdn' : dn ∈ fp.dependency := by
      simpa [toDesc, FileDesc.dependencyNames] using hdn
    exact dictContains_insert_of _ _ _ _ (hall dn hdn')
  · rw [if_neg h] at hk
    exact dictContains_insert_of _ _ _ _ (hd k fd hk dn hdn)

lemma onePass_depClosed (d : Dict) (rem : List FileProto) (hd : DepClosed d) :
    DepClosed (onePass d rem).1 := by
  induction rem generalizing d with
  | nil => simpa [onePass]
  | cons g rest ih =>
    by_cases hc : (g.dependency.filterMap (fun dep => dictLookup d dep)).length
        = g.dependency.length
    · simp only [onePass, if_pos hc]
      refine ih _ (depClosed_insert _ _ _ hd ?_)
      intro dn hdn
      have hs := (length_filterMap_eq_iff _ _).mp hc dn hdn
      simpa [dictContains] using hs
    · simp only [onePass, if_neg hc]
      exact ih _ hd

lemma firstPass_aux_depClosed (fs : List FileProto) (d : Dict) (hd : DepClosed d) :
    DepClosed (fs.foldl
      (fun d fp => if fp.dependency.isEmpty
        then dictInsert d fp.name (toDesc fp []) else d) d) := by
  induction fs generalizing d with
  | nil => simpa
  | cons g rest ih =>
    rw [List.foldl_cons]
    by_cases hg : g.dependency.isEmpty
    · rw [if_pos hg]
      refine ih _ (depClosed_insert _ _ _ hd ?_)
      intro dn hdn
      rw [List.isEmpty_iff.mp hg] at hdn
      simp at hdn
    · rw [if_neg hg]
      exact ih _ hd

lemma firstPass_depClosed (fs : List FileProto) : DepClosed (firstPass fs) := by
  unfold firstPass
  refine firstPass_aux_depClosed fs [] ?_
  intro k fd hk
  simp [dictLookup] at hk

lemma loadLoop_contains_mono (fuel : Nat) (d : Dict) (rem : List FileProto) (k : String)
    (h : dictContains d k = true) : dictContains (loadLoop fuel d rem).1 k = true := by
  induction fuel generalizing d rem with
  | zero => simpa [loadLoop]
  | succ n ih =>
    by_cases hre : rem.isEmpty
    · simp only [loadLoop, if_pos hre]
      exact h
    · simp only [loadLoop, if_neg hre]
      by_cases hp : (onePass d rem).2.isEmpty
      · simp only [if_pos hp]
        exact onePass_contains_mono _ _ _ h
      · simp only [if_neg hp]
        exact ih _ _ (onePass_contains_mono _ _ _ h)

lemma loadLoop_depClosed (fuel : Nat) (d : Dict) (rem : List FileProto)
    (hd : DepClosed d) : DepClosed (loadLoop fuel d rem).1 := by
  induction fuel generalizing d rem with
  | zero => simpa [loadLoop]
  | succ n ih =>
    by_cases hre : rem.isEmpty
    · simp only [loadLoop, if_pos hre]
      exact hd
    · simp only [loadLoop, if_neg hre]
      by_cases hp : (onePass d rem).2.isEmpty
      · simp only [if_pos hp]
        exact onePass_depClosed _ _ hd
      · simp only [if_neg hp]
        exact ih _ _ (onePass_depClosed _ _ hd)

/-- C2: for every input snapshot, the mapping returned by `load_descriptors`
satisfies the graph invariant: every record present in the mapping has each
of its declared dependency names also present as a key of the mapping, so no
resolved record has an unresolved dependency. -/
theorem C2_resolved_closed_under_deps (fs : List FileProto) (k : String) (fd : FileDesc)
    (hk : dictLookup (load_descriptors fs).1 k = some fd) :
    ∀ dn ∈ fd.dependencyNames, dictContains (load_descriptors fs).1 dn = true :=
  loadLoop_depClosed _ _ _ (firstPass_depClosed fs) k fd hk

/-- C2 witness: in the graph loaded from the snapshot
`[fileUserA, fileOrderC]`, the record stored for `c.proto` declares
`a.proto`, which is indeed a key of the mapping. -/
theorem C2_resolved_closed_under_deps_witness :
    dictContains (load_descriptors [fileUserA, fileOrderC]).1 "a.proto" = true :=
  C2_resolved_closed_under_deps [fileUserA, fileOrderC] "c.proto"
    (toDesc fileOrderC [toDesc fileUserA []]) (by rfl) "a.proto" (by decide)

lemma removeResolved_length_le (resolved rem : List FileProto) :
    (removeResolved rem resolved).length ≤ rem.length := by
  induction resolved generalizing rem with
  | nil => simp [removeResolved]
  | cons r rs ih =>
    have h1 : (rem.erase r).length ≤ rem.length := by
      rw [List.length_erase]
      split <;> omega
    exact le_trans (ih (rem.erase r)) h1

lemma removeResolved_length_lt (rem : List FileProto) (r : FileProto)
    (rs : List FileProto) (hr : r ∈ rem) :
    (removeResolved rem (r :: rs)).length < rem.length := by
  have h1 : (rem.erase r).length = rem.length - 1 := List.length_erase_of_mem hr
  have h2 := removeResolved_length_le rs (rem.erase r)
  have h3 : 0 < rem.length := List.length_pos.mpr (List.ne_nil_of_mem hr)
  have h4 : (removeResolved rem (r :: rs)).length
      = (removeResolved (rem.erase r) rs).length := rfl
  omega

lemma loadLoop_stable (fuel : Nat) (d : Dict) (rem : List FileProto)
    (h : rem.length ≤ fuel) : loadLoop fuel d rem = loadLoop rem.length d rem := by
  induction fuel using Nat.strong_induction_on generalizing d rem with
  | _ fuel ih =>
    match fuel with
    | 0 =>
      have hnil : rem = [] := List.length_eq_zero.mp (Nat.le_zero.mp h)
      subst hnil
      rfl
    | n + 1 =>
      rcases hrem : rem with _ | ⟨g, rest⟩
      · simp [loadLoop]
      · subst hrem
        have hne : (g :: rest).isEmpty = false := rfl
        simp only [loadLoop, List.length_cons, hne, Bool.false_eq_true, if_false]
        by_cases hp : (onePass d (g :: rest)).2.isEmpty
        · simp only [if_pos hp]
        · simp only [if_neg hp]
          rcases hres : (onePass d (g :: rest)).2 with _ | ⟨r, rs⟩
          · rw [hres] at hp
            simp at hp
          · have hrmem : r ∈ g :: rest :=
              onePass_resolved_subset d (g :: rest) r (by rw [hres]; exact List.mem_cons_self _ _)
            have hlt : (removeResolved (g :: rest) (r :: rs)).length
                < (g :: rest).length := removeResolved_length_lt _ _ _ hrmem
            rw [List.length_cons] at hlt
            rw [List.length_cons] at h
            rw [ih n (by omega) _ _ (by omega),
              ih rest.length (by omega) _ _ (by omega)]

/-- C4: the fixed-point loop of `load_descriptors` reaches its final state
within at most N passes for N initially-unresolved records: running the loop
with any fuel of at least `(withDeps fs).length` passes yields exactly
`load_descriptors fs`, because every pass that makes progress resolves (and
removes) at least one record and the loop stops on the first pass that
resolves nothing new. -/
theorem C4_terminates_within_n_passes (fs : List FileProto) (fuel : Nat)
    (h : (withDeps fs).length ≤ fuel) :
    loadLoop fuel (firstPass fs) (withDeps fs) = load_descriptors fs :=
  loadLoop_stable fuel (firstPass fs) (withDeps fs) h

/-- C4 witness: ten passes of fuel on a two-file snapshot with one
dependent record. -/
theorem C4_terminates_within_n_passes_witness :
    loadLoop 10 (firstPass [fileUserA, fileOrderC]) (withDeps [fileUserA, fileOrderC])
      = load_descriptors [fileUserA, fileOrderC] :=
  C4_terminates_within_n_passes [fileUserA, fileOrderC] 10 (by decide)

lemma mem_removeResolved (rem resolved : List FileProto) (fp : FileProto)
    (hfp : fp ∈ rem) (hne : ∀ r ∈ resolved, fp ≠ r) : fp ∈ removeResolved rem resolved := by
  induction resolved generalizing rem with
  | nil => simpa [removeResolved]
  | cons r rs ih =>
    have h1 : fp ∈ rem.erase r :=
      (List.mem_erase_of_ne (hne r (List.mem_cons_self _ _))).mpr hfp
    exact ih (rem.erase r) h1 (fun r' hr' => hne r' (List.mem_cons_of_mem _ hr'))

lemma removeResolved_subset (rem resolved : List FileProto) :
    removeResolved rem resolved ⊆ rem := by
  induction resolved generalizing rem with
  | nil => simp [removeResolved]
  | cons r rs ih =>
    exact fun x hx => List.erase_subset _ _ (ih (rem.erase r) hx)

lemma loadLoop_coverage (fuel : Nat) (d : Dict) (rem : List FileProto)
    (fp : FileProto) (hfp : fp ∈ rem) :
    dictContains (loadLoop fuel d rem).1 fp.name = true
    ∨ fp ∈ (loadLoop fuel d rem).2 := by
  induction fuel generalizing d rem with
  | zero =>
    right
    simpa [loadLoop]
  | succ n ih =>
    by_cases hre : rem.isEmpty
    · rw [List.isEmpty_iff.mp hre] at hfp
      simp at hfp
    · simp only [loadLoop, if_neg hre]
      by_cases hp : (onePass d rem).2.isEmpty
      · right
        simp only [if_pos hp]
        exact hfp
      · simp only [if_neg hp]
        by_cases hin : fp ∈ (onePass d rem).2
        · left
          exact loadLoop_contains_mono _ _ _ _ (onePass_resolved_contains d rem fp hin)
        · exact ih _ _ (mem_removeResolved _ _ _ hfp (fun r hr heq => hin (heq ▸ hr)))

lemma loadLoop_fixpoint (fuel : Nat) (d : Dict) (rem : List FileProto)
    (h : rem.length ≤ fuel) :
    (loadLoop fuel d rem).2 = []
    ∨ ∀ fp ∈ (loadLoop fuel d rem).2, ∃ dep ∈ fp.dependency,
        dictContains (loadLoop fuel d rem).1 dep = false := by
  induction fuel using Nat.strong_induction_on generalizing d rem with
  | _ fuel ih =>
    match fuel with
    | 0 =>
      left
      have hnil : rem = [] := List.length_eq_zero.mp (Nat.le_zero.mp h)
      rw [hnil]
      rfl
    | n + 1 =>
      rcases hrem : rem with _ | ⟨g, rest⟩
      · left
        simp [loadLoop]
      · have hne : (g :: rest).isEmpty = false := rfl
        simp only [loadLoop, hne, Bool.false_eq_true, if_false]
        by_cases hp : (onePass d (g :: rest)).2.isEmpty
        · right
          simp only [if_pos hp]
          intro fp hfp
          have hnp := onePass_no_progress d (g :: rest) (List.isEmpty_iff.mp hp)
          obtain ⟨dep, hdep, hfalse⟩ := hnp.2 fp hfp
          refine ⟨dep, hdep, ?_⟩
          rw [hnp.1]
          exact hfalse
        · simp only [if_neg hp]
          rcases hres : (onePass d (g :: rest)).2 with _ | ⟨r, rs⟩
          · rw [hres] at hp
            simp at hp
          · have hrmem : r ∈ g :: rest :=
              onePass_resolved_subset d (g :: rest) r
                (by rw [hres]; exact List.mem_cons_self _ _)
            have hlt : (removeResolved (g :: rest) (r :: rs)).length
                < (g :: rest).length := removeResolved_length_lt _ _ _ hrmem
            rw [hrem] at h
            rw [List.length_cons] at h hlt
            exact ih n (by omega) _ _ (by omega)

lemma sound_insert (fs : List FileProto) (d : Dict) (g : FileProto) (deps : List FileDesc)
    (hg : g ∈ fs)
    (hs : ∀ k, dictContains d k = true → Resolvable fs k)
    (hall : ∀ dep ∈ g.dependency, dictContains d dep = true) :
    ∀ k, dictContains (dictInsert d g.name (toDesc g deps)) k = true → Resolvable fs k := by
  intro k hk
  rw [dictContains_insert] at hk
  by_cases he : g.name = k
  · subst he
    exact Resolvable.step g hg (fun dep hdep => hs dep (hall dep hdep))
  · have hck : dictContains d k = true := by
      simpa [he] using hk
    exact hs k hck

lemma onePass_sound (fs : List FileProto) (d : Dict) (rem : List FileProto)
    (hsub : ∀ x ∈ rem, x ∈ fs)
    (hs : ∀ k, dictContains d k = true → Resolvable fs k) :
    ∀ k, dictContains (onePass d rem).1 k = true → Resolvable fs k := by
  induction rem generalizing d with
  | nil =>
    simpa [onePass] using hs
  | cons g rest ih =>
    by_cases hc : (g.dependency.filterMap (fun dep => dictLookup d dep)).length
        = g.dependency.length
    · simp only [onePass, if_pos hc]
      refine ih _ (fun x hx => hsub x (List.mem_cons_of_mem _ hx)) ?_
      refine sound_insert fs d g _ (hsub g (List.mem_cons_self _ _)) hs ?_
      intro dep hdep
      have hsome := (length_filterMap_eq_iff _ _).mp hc dep hdep
      simpa [dictContains] using hsome
    · simp only [onePass, if_neg hc]
      exact ih _ (fun x hx => hsub x (List.mem_cons_of_mem _ hx)) hs

lemma onePass_bad_not_resolved (fs : List FileProto) (d : Dict) (rem : List FileProto)
    (hsub : ∀ x ∈ rem, x ∈ fs)
    (hs : ∀ k, dictContains d k = true → Resolvable fs k)
    (fp : FileProto) (hbad : ∃ dep ∈ fp.dependency, ¬ Resolvable fs dep) :
    fp ∉ (onePass d rem).2 := by
  induction rem generalizing d with
  | nil => simp [onePass]
  | cons g rest ih =>
    by_cases hc : (g.dependency.filterMap (fun dep => dictLookup d dep)).length
        = g.dependency.length
    · simp only [onePass, if_pos hc]
      intro hmem
      rcases List.mem_cons.mp hmem with rfl | hmem'
      · obtain ⟨dep, hdep, hnr⟩ := hbad
        have hsome := (length_filterMap_eq_iff _ _).mp hc dep hdep
        exact hnr (hs dep (by simpa [dictContains] using hsome))
      · refine ih _ (fun x hx => hsub x (List.mem_cons_of_mem _ hx)) ?_ hmem'
        refine sound_insert fs d g _ (hsub g (List.mem_cons_self _ _)) hs ?_
        intro dep hdep
        have hsome := (length_filterMap_eq_iff _ _).mp hc dep hdep
        simpa [dictContains] using hsome
    · simp only [onePass, if_neg hc]
      exact ih _ (fun x hx => hsub x (List.mem_cons_of_mem _ hx)) hs

lemma loadLoop_bad_kept (fs : List FileProto) (fuel : Nat) (d : Dict)
    (rem : List FileProto)
    (hsub : ∀ x ∈ rem, x ∈ fs)
    (hs : ∀ k, dictContains d k = true → Resolvable fs k)
    (fp : FileProto) (hfp : fp ∈ rem)
    (hbad : ∃ dep ∈ fp.dependency, ¬ Resolvable fs dep) :
    fp ∈ (loadLoop fuel d rem).2 := by
  induction fuel generalizing d rem with
  | zero => simpa [loadLoop]
  | succ n ih =>
    by_cases hre : rem.isEmpty
    · rw [List.isEmpty_iff.mp hre] at hfp
      simp at hfp
    · simp only [loadLoop, if_neg hre]
      by_cases hp : (onePass d rem).2.isEmpty
      · simp only [if_pos hp]
        exact hfp
      · simp only [if_neg hp]
        have hnot : fp ∉ (onePass d rem).2 :=
          onePass_bad_not_resolved fs d rem hsub hs fp hbad
        refine ih _ _ (fun x hx => hsub x (removeResolved_subset _ _ hx)) ?_ ?_
        · exact onePass_sound fs d rem hsub hs
        · exact mem_removeResolved _ _ _ hfp (fun r hr heq => hnot (heq ▸ hr))

lemma firstPass_step_mono (sub : List FileProto) (d : Dict) (k : String)
    (h : dictContains d k = true) :
    dictContains (sub.foldl
      (fun d fp => if fp.dependency.isEmpty
        then dictInsert d fp.name (toDesc fp []) else d) d) k = true := by
  induction sub generalizing d with
  | nil => simpa
  | cons g rest ih =>
    rw [List.foldl_cons]
    by_cases hg : g.dependency.isEmpty
    · rw [if_pos hg]
      exact ih _ (dictContains_insert_of _ _ _ _ h)
    · rw [if_neg hg]
      exact ih _ h

lemma firstPass_aux_contains (sub : List FileProto) (fp : FileProto)
    (h0 : fp.dependency.isEmpty) :
    ∀ d : Dict, fp ∈ sub →
      dictContains (sub.foldl
        (fun d fp => if fp.dependency.isEmpty
          then dictInsert d fp.name (toDesc fp []) else d) d) fp.name = true := by
  induction sub with
  | nil =>
    intro d h
    simp at h
  | cons g rest ih =>
    intro d hmem
    rw [List.foldl_cons]
    rcases List.mem_cons.mp hmem with rfl | hm
    · rw [if_pos h0]
      exact firstPass_step_mono _ _ _ (dictContains_insert_self _ _ _)
    · by_cases hg : g.dependency.isEmpty
      · rw [if_pos hg]
        exact ih _ hm
      · rw [if_neg hg]
        exact ih _ hm

lemma firstPass_contains_nodep (fs : List FileProto) (fp : FileProto)
    (hmem : fp ∈ fs) (h0 : fp.dependency.isEmpty) :
    dictContains (firstPass fs) fp.name = true :=
  firstPass_aux_contains fs fp h0 [] hmem

lemma firstPass_aux_sound (fs : List FileProto) (sub : List FileProto)
    (hsub : ∀ x ∈ sub, x ∈ fs) :
    ∀ d : Dict, (∀ k, dictContains d k = true → Resolvable fs k) →
      ∀ k, dictContains (sub.foldl
        (fun d fp => if fp.dependency.isEmpty
          then dictInsert d fp.name (toDesc fp []) else d) d) k = true →
        Resolvable fs k := by
  induction sub with
  | nil =>
    intro d hs
    simpa using hs
  | cons g rest ih =>
    intro d hs
    rw [List.foldl_cons]
    by_cases hg : g.dependency.isEmpty
    · rw [if_pos hg]
      refine ih (fun x hx => hsub x (List.mem_cons_of_mem _ hx)) _ ?_
      refine sound_insert fs d g [] (hsub g (List.mem_cons_self _ _)) hs ?_
      intro dep hdep
      rw [List.isEmpty_iff.mp hg] at hdep
      simp at hdep
    · rw [if_neg hg]
      exact ih (fun x hx => hsub x (List.mem_cons_of_mem _ hx)) _ hs

lemma firstPass_sound (fs : List FileProto) :
    ∀ k, dictContains (firstPass fs) k = true → Resolvable fs k := by
  unfold firstPass
  refine firstPass_aux_sound fs fs (fun x hx => hx) [] ?_
  intro k hk
  simp [dictContains, dictLookup] at hk

lemma load_complete (fs : List FileProto) (nm : String) (h : Resolvable fs nm) :
    dictContains (load_descriptors fs).1 nm = true := by
  induction h with
  | step fp hmem hdeps ih =>
    by_cases hdep0 : fp.dependency.isEmpty
    · exact loadLoop_contains_mono _ _ _ _ (firstPass_contains_nodep fs fp hmem hdep0)
    · have hfp : fp ∈ withDeps fs := by
        simp only [withDeps, List.mem_filter, Bool.not_eq_true']
        exact ⟨hmem, Bool.not_eq_true _ ▸ hdep0⟩
      rcases loadLoop_coverage (withDeps fs).length (firstPass fs) (withDeps fs) fp hfp
        with hc | hr
      · exact hc
      · rcases loadLoop_fixpoint (withDeps fs).length (firstPass fs) (withDeps fs) le_rfl
          with hnil | hbad
        · rw [hnil] at hr
          simp at hr
        · obtain ⟨dep, hdep, hfalse⟩ := hbad fp hr
          have htrue := ih dep hdep
          unfold load_descriptors at htrue
          rw [htrue] at hfalse
          cases hfalse

lemma resolvable_mem (fs : List FileProto) (nm : String) (h : Resolvable fs nm) :
    ∃ fp ∈ fs, fp.name = nm ∧ ∀ dep ∈ fp.dependency, Resolvable fs dep := by
  cases h with
  | step fp hmem hdeps => exact ⟨fp, hmem, rfl, hdeps⟩

/-- C3: `load_descriptors` resolves every record whose declared dependencies
are all resolvable, the records it reports in the warning are exactly those
with a dependency that never becomes resolvable (whether absent from the
snapshot or on a dependency cycle — the report does not distinguish the
two), and the partial graph is returned normally alongside that report. -/
theorem C3_partial_resolution (fs : List FileProto) :
    (∀ fp ∈ fs, (∀ dep ∈ fp.dependency, Resolvable fs dep) →
        dictContains (load_descriptors fs).1 fp.name = true
        ∧ fp ∉ (load_descriptors fs).2)
    ∧ (∀ fp ∈ (load_descriptors fs).2, ∃ dep ∈ fp.dependency, ¬ Resolvable fs dep)
    ∧ (∀ fp ∈ fs, (∃ dep ∈ fp.dependency, ¬ Resolvable fs dep) →
        fp ∈ (load_descriptors fs).2) := by
  have hfix := loadLoop_fixpoint (withDeps fs).length (firstPass fs) (withDeps fs) le_rfl
  refine ⟨?_, ?_, ?_⟩
  · intro fp hmem hdeps
    refine ⟨load_complete fs fp.name (Resolvable.step fp hmem hdeps), ?_⟩
    intro hfp
    rcases hfix with hnil | hbad
    · unfold load_descriptors at hfp
      rw [hnil] at hfp
      simp at hfp
    · obtain ⟨dep, hdep, hfalse⟩ := hbad fp hfp
      have htrue := load_complete fs dep (hdeps dep hdep)
      unfold load_descriptors at htrue
      rw [htrue] at hfalse
      cases hfalse
  · intro fp hfp
    rcases hfix with hnil | hbad
    · unfold load_descriptors at hfp
      rw [hnil] at hfp
      simp at hfp
    · obtain ⟨dep, hdep, hfalse⟩ := hbad fp hfp
      refine ⟨dep, hdep, ?_⟩
      intro hres
      have htrue := load_complete fs dep hres
      unfold load_descriptors at htrue
      rw [htrue] at hfalse
      cases hfalse
  · intro fp hmem hbad
    have hfp : fp ∈ withDeps fs := by
      obtain ⟨dep, hdep, _⟩ := hbad
      have hne : fp.dependency.isEmpty = false := by
        rcases hdd : fp.dependency with _ | _
        · rw [hdd] at hdep
          simp at hdep
        · rfl
      simp only [withDeps, List.mem_filter, hne]
      exact ⟨hmem, rfl⟩
    exact loadLoop_bad_kept fs (withDeps fs).length (firstPass fs) (withDeps fs)
      (fun x hx => (List.mem_filter.mp hx).1) (firstPass_sound fs) fp hfp hbad

/-- C3 witness: in a snapshot where `bad.proto` declares a dependency on a
file absent from the snapshot, that record ends up reported in the
unresolved set while the rest of the graph is returned. -/
theorem C3_partial_resolution_witness :
    fileMissingDep ∈ (load_descriptors [fileUserA, fileOrderC, fileMissingDep]).2
    ∧ dictContains (load_descriptors [fileUserA, fileOrderC, fileMissingDep]).1
        "c.proto" = true := by
  have hnot : ¬ Resolvable [fileUserA, fileOrderC, fileMissingDep] "missing.proto" := by
    intro h
    obtain ⟨fp, hmem, hname, _⟩ := resolvable_mem _ _ h
    fin_cases hmem <;> exact absurd hname (by decide)
  have hresA : Resolvable [fileUserA, fileOrderC, fileMissingDep] "a.proto" :=
    Resolvable.step fileUserA (by decide) (by intro dep hdep; simp [fileUserA] at hdep)
  refine ⟨?_, ?_⟩
  · exact (C3_partial_resolution [fileUserA, fileOrderC, fileMissingDep]).2.2 fileMissingDep
      (by decide) ⟨"missing.proto", by decide, hnot⟩
  · have := ((C3_partial_resolution [fileUserA, fileOrderC, fileMissingDep]).1 fileOrderC
      (by decide) ?_).1
    · exact this
    · intro dep hdep
      have hd : dep = "a.proto" := by
        simpa [fileOrderC] using hdep
      rw [hd]
      exact hresA
